import Mathlib

/-!
Shallow embedding of the MPI traffic-flow cellular automaton
(`src/CA/cellular_automaton_mpi.c`) together with its sequential reference
version, and proofs of the specification claims about it.

Cells are `int8_t` values modelled as `Int`, with C truthiness (nonzero is
true).  A worker's local segment is a `List Int` of length `local_n + 2`:
index 0 and index `local_n + 1` are the ghost slots, indices `1 .. local_n`
are owned.  The global MPI computation is modelled as explicit state passing
over the list of all workers' buffer pairs.
-/

namespace CA

/-- C truthiness of an `int8_t` value: nonzero is true. -/
def cB (x : Int) : Bool := x != 0

/-- Transition rule for one cell, from `update_step` lines 32-39 of the MPI
version (identical to the sequential version lines 225-228):
`car_arriving = left && !curr`, `car_staying = curr && right`,
`new = car_arriving || car_staying`, stored as 0 or 1. -/
def rule (l c r : Int) : Int :=
  let car_arriving := cB l && !cB c
  let car_staying := cB c && cB r
  if car_arriving || car_staying then 1 else 0

/-- Movement test from line 41: `old[i] && !old[i+1]`. -/
def movedAt (c r : Int) : Bool := cB c && !cB r

/-- Loop of `update_step` (lines 31-44): starting at index `i`, for `fuel`
steps, write `new[i] = rule old[i-1] old[i] old[i+1]` and count the cells with
an outgoing move. -/
def update_aux (old : List Int) : Nat → Nat → List Int → Int → List Int × Int
  | 0, _, new, moved => (new, moved)
  | fuel + 1, i, new, moved =>
    let l := old.getD (i - 1) 0
    let c := old.getD i 0
    let r := old.getD (i + 1) 0
    update_aux old fuel (i + 1) (new.set i (rule l c r))
      (if movedAt c r then moved + 1 else moved)

/-- `update_step` of the MPI version (lines 27-46): writes owned cells
`1 .. local_n` of `new_road` from `old_road`, returns the updated buffer
and the `cars_moved` count. -/
def update_step (old_road new_road : List Int) (local_n : Nat) : List Int × Int :=
  update_aux old_road local_n 1 new_road 0

/-- Loop of `count_cars_local` (lines 48-54). -/
def count_aux (road : List Int) : Nat → Nat → Int → Int
  | 0, _, c => c
  | fuel + 1, i, c => count_aux road fuel (i + 1) (c + road.getD i 0)

/-- `count_cars_local` (lines 48-54): sum of the owned cells `1 .. local_n`. -/
def count_cars_local (road : List Int) (local_n : Nat) : Int :=
  count_aux road local_n 1 0

/-- Sequential reference `update_step` (serial version, lines 217-237):
full-ring update with periodic boundary.  For `i < n` the C index
`(i - 1 + n) % n` equals `(i + n - 1) % n` in natural-number arithmetic,
since `i - 1 + n` is nonnegative. -/
def seq_update (old : List Int) : List Int :=
  (List.range old.length).map fun i =>
    let n := old.length
    rule (old.getD ((i + n - 1) % n) 0) (old.getD i 0) (old.getD ((i + 1) % n) 0)

/-- `left_neighbor` computation of main, line 125: `(rank - 1 + size) % size`
with C `int` arithmetic (`%` is the truncating remainder, `Int.tmod`). -/
def left_neighbor (rank size : Int) : Int := (rank - 1 + size).tmod size

/-- `right_neighbor` computation of main, line 126: `(rank + 1) % size`. -/
def right_neighbor (rank size : Int) : Int := (rank + 1).tmod size

/-- Load balancing of main, lines 110-114: `local_n = n / size`, plus one for
the first `n % size` ranks. -/
def local_n (n size r : Nat) : Nat := n / size + if r < n % size then 1 else 0

/-- Ring offset of worker `r`'s owned range inside the global lattice: the
running `offset += recvcounts[i]` accumulation of `gather_and_print`
(lines 69-75). -/
def offset (n size : Nat) : Nat → Nat
  | 0 => 0
  | r + 1 => offset n size r + local_n n size r

/-- `recvcounts` of `gather_and_print`, line 72. -/
def recvcounts (n size : Nat) : List Nat :=
  (List.range size).map fun i => n / size + if i < n % size then 1 else 0

/-- `displs` of `gather_and_print`, line 73: the running offsets. -/
def displs (n size : Nat) : List Nat :=
  (List.range size).map (offset n size)

/-- Symbolic buffer index used by an exchange phase; resolved against a
segment's own `local_n`. -/
inductive Slot where
  | s0
  | s1
  | sLn
  | sLn1
deriving DecidableEq

/-- Resolve a symbolic slot for a segment with the given `local_n`. -/
def Slot.resolve : Slot → Nat → Nat
  | .s0, _ => 0
  | .s1, _ => 1
  | .sLn, ln => ln
  | .sLn1, ln => ln + 1

/-- Ring direction. -/
inductive Dir where
  | left
  | right
deriving DecidableEq

/-- One `MPI_Sendrecv` sub-phase of `exchange_borders`: which slot is sent to
which neighbor, and which slot receives from which neighbor. -/
structure Phase where
  sendSlot : Slot
  sendTo : Dir
  recvSlot : Slot
  recvFrom : Dir
deriving DecidableEq

/-- The two `MPI_Sendrecv` calls of `exchange_borders` (lines 16-24), in
program order: the first sends `road[1]` to `left_neighbor` and receives into
`road[local_n + 1]` from `right_neighbor`; the second sends `road[local_n]` to
`right_neighbor` and receives into `road[0]` from `left_neighbor`. -/
def exchange_schedule : List Phase :=
  [⟨.s1, .left, .sLn1, .right⟩, ⟨.sLn, .right, .s0, .left⟩]

/-- Rank of the neighbor of `r` in direction `d`, as a natural number
(the ranks produced by lines 125-126 are nonnegative). -/
def neighborN (size r : Nat) : Dir → Nat
  | .left => (left_neighbor r size).toNat
  | .right => (right_neighbor r size).toNat

/-- Global effect of one sub-phase executed by every rank: rank `r` receives,
into its `recvSlot`, the value its `recvFrom` neighbor sent, namely that
neighbor's `sendSlot` cell; all sends read the state from before the phase
(each rank's `MPI_Sendrecv` reads its send buffer at call time). -/
def apply_phase (segs : List (List Int)) (ph : Phase) : List (List Int) :=
  (List.range segs.length).map fun r =>
    let seg := segs.getD r []
    let src := neighborN segs.length r ph.recvFrom
    let srcSeg := segs.getD src []
    seg.set (ph.recvSlot.resolve (seg.length - 2))
      (srcSeg.getD (ph.sendSlot.resolve (srcSeg.length - 2)) 0)

/-- `exchange_borders` executed by every rank: the two sub-phases in program
order. -/
def exchange_all (segs : List (List Int)) : List (List Int) :=
  exchange_schedule.foldl apply_phase segs

/-- A worker's buffer pair `(road_current, road_next)`. -/
abbrev WState := List Int × List Int

/-- Worker `r`'s state when the conceptual global lattice is `lat`: its owned
slice of `lat` framed by two ghost slots; both buffers come from `calloc`
(lines 117-118), so ghost slots and the whole next buffer start at 0. -/
def init_worker (lat : List Int) (size r : Nat) : WState :=
  let n := lat.length
  let ln := local_n n size r
  (0 :: ((lat.drop (offset n size r)).take ln) ++ [0], List.replicate (ln + 2) 0)

/-- The whole worker group's state for global lattice `lat`. -/
def init_state (lat : List Int) (size : Nat) : List WState :=
  (List.range size).map (init_worker lat size)

/-- One iteration of the main loop (lines 155-164): halo exchange on the
current buffers, `update_step` into the next buffer, pointer swap. -/
def global_step (st : List WState) : List WState :=
  let ex := exchange_all (st.map Prod.fst)
  (List.range st.length).map fun r =>
    let cur := ex.getD r []
    let nxt := (st.getD r ([], [])).2
    ((update_step cur nxt (cur.length - 2)).1, cur)

/-- The partitioned computation: `k` iterations from the partitioned lattice. -/
def run_sim (lat : List Int) (size k : Nat) : List WState :=
  global_step^[k] (init_state lat size)

/-- The owned cells of a segment (what `gather_and_print` sends:
`&local_road[1]`, `local_n` elements). -/
def owned_of (seg : List Int) : List Int := (seg.drop 1).take (seg.length - 2)

/-- `MPI_Gatherv` of `gather_and_print` (lines 78-80): owned segments
concatenated in rank order. -/
def gather_sim (st : List WState) : List Int := (st.map fun p => owned_of p.1).flatten

/-- `MPI_Allreduce` sum of `count_cars_local` over all workers
(lines 132-134). -/
def total_cars (st : List WState) : Int :=
  (st.map fun p => count_cars_local p.1 (p.1.length - 2)).sum

/-- Outcome of program startup. -/
inductive StartupResult where
  | usage_exit (code : Int)
  | proceed (n iterations : Int)
deriving DecidableEq

/-- Argument handling of main, lines 100-106: defaults `n = 1000`,
`iterations = 1000`, optional positional overrides; the code performs no
validation of either value, so argument handling always proceeds (whatever
happens later — e.g. an allocation failure aborting the group — is not part
of argument handling). -/
def startup (arg1 arg2 : Option Int) : StartupResult :=
  let n := arg1.getD 1000
  let iterations := arg2.getD 1000
  .proceed n iterations

/-- Whether a startup outcome is a usage message plus exit. -/
def StartupResult.isUsageExit : StartupResult → Bool
  | .usage_exit _ => true
  | .proceed _ _ => false

/-! ### Lemmas about the update kernel -/

theorem update_aux_length (old : List Int) (fuel : Nat) :
    ∀ (i : Nat) (new : List Int) (m : Int),
      (update_aux old fuel i new m).1.length = new.length := by
  induction fuel with
  | zero => intro i new m; rfl
  | succ f ih => intro i new m; rw [update_aux, ih]; exact List.length_set ..

theorem update_aux_frame (old : List Int) (fuel : Nat) :
    ∀ (i : Nat) (new : List Int) (m : Int) (j : Nat) (d : Int),
      (j < i ∨ i + fuel ≤ j) →
      (update_aux old fuel i new m).1.getD j d = new.getD j d := by
  induction fuel with
  | zero => intro i new m j d h; rfl
  | succ f ih =>
    intro i new m j d h
    rw [update_aux, ih _ _ _ _ _ (by omega)]
    simp only [List.getD_eq_getElem?_getD, List.getElem?_set_ne (by omega : i ≠ j)]

theorem update_aux_value (old : List Int) (fuel : Nat) :
    ∀ (i : Nat) (new : List Int) (m : Int) (j : Nat) (d : Int),
      i ≤ j → j < i + fuel → j < new.length →
      (update_aux old fuel i new m).1.getD j d
        = rule (old.getD (j - 1) 0) (old.getD j 0) (old.getD (j + 1) 0) := by
  induction fuel with
  | zero => intro i new m j d h1 h2 h3; omega
  | succ f ih =>
    intro i new m j d h1 h2 h3
    rw [update_aux]
    by_cases hji : j = i
    · subst hji
      rw [update_aux_frame _ _ _ _ _ _ _ (Or.inl (by omega))]
      simp only [List.getD_eq_getElem?_getD, List.getElem?_set_self h3, Option.getD_some]
    · exact ih _ _ _ _ _ (by omega) (by omega) (by simpa using h3)

theorem update_aux_moved (old : List Int) (fuel : Nat) :
    ∀ (i : Nat) (new : List Int) (m : Int),
      (update_aux old fuel i new m).2
        = m + (((List.range fuel).map (· + i)).filter
            (fun t => movedAt (old.getD t 0) (old.getD (t + 1) 0))).length := by
  induction fuel with
  | zero => intro i new m; simp [update_aux]
  | succ f ih =>
    intro i new m
    rw [update_aux, ih]
    rw [List.range_succ_eq_map, List.map_cons, List.map_map, List.filter_cons]
    have hmap : (List.map ((· + i) ∘ Nat.succ) (List.range f))
        = List.map (· + (i + 1)) (List.range f) := by
      apply List.map_congr_left
      intro t _
      simp only [Function.comp_apply]
      omega
    rw [hmap]
    by_cases hm : movedAt (old.getD i 0) (old.getD (i + 1) 0)
    · simp only [Nat.zero_add, hm, if_pos, List.length_cons]
      push_cast
      ring
    · simp only [Nat.zero_add, hm]
      simp

/-- Claim C4: for every local segment `old` with populated ghost slots and
every owned index `i` in `[1, local_n]`, `update_step` computes
`new[i] = (old[i-1] AND NOT old[i]) OR (old[i] AND old[i+1])`, and returns
exactly the number of owned indices `i` with `old[i] AND NOT old[i+1]`. -/
theorem C4_update_step_functional (old new : List Int) (ln : Nat)
    (hlen : ln + 2 ≤ new.length) :
    (∀ i, 1 ≤ i → i ≤ ln →
      (update_step old new ln).1.getD i 0
        = if (cB (old.getD (i - 1) 0) && !cB (old.getD i 0))
            || (cB (old.getD i 0) && cB (old.getD (i + 1) 0)) then 1 else 0) ∧
    (update_step old new ln).2
      = (((List.range ln).map (· + 1)).filter
          (fun i => movedAt (old.getD i 0) (old.getD (i + 1) 0))).length := by
  constructor
  · intro i h1 h2
    rw [update_step, update_aux_value old ln 1 new 0 i 0 h1 (by omega) (by omega)]
    rfl
  · rw [update_step, update_aux_moved]
    simp

/-- Witness for C4 at a concrete segment. -/
theorem C4_update_step_functional_witness :
    (3 : Nat) + 2 ≤ ([9, 9, 9, 9, 9] : List Int).length ∧
    ((∀ i, 1 ≤ i → i ≤ 3 →
      (update_step [0, 1, 1, 0, 1] [9, 9, 9, 9, 9] 3).1.getD i 0
        = if (cB (([0, 1, 1, 0, 1] : List Int).getD (i - 1) 0)
              && !cB (([0, 1, 1, 0, 1] : List Int).getD i 0))
            || (cB (([0, 1, 1, 0, 1] : List Int).getD i 0)
              && cB (([0, 1, 1, 0, 1] : List Int).getD (i + 1) 0)) then 1 else 0) ∧
    (update_step [0, 1, 1, 0, 1] [9, 9, 9, 9, 9] 3).2
      = (((List.range 3).map (· + 1)).filter
          (fun i => movedAt (([0, 1, 1, 0, 1] : List Int).getD i 0)
            (([0, 1, 1, 0, 1] : List Int).getD (i + 1) 0))).length) :=
  ⟨by decide, C4_update_step_functional [0, 1, 1, 0, 1] [9, 9, 9, 9, 9] 3 (by decide)⟩

/-- Claim C10: `update_step` writes only the owned indices `1 .. local_n` of the
destination buffer; in particular the two ghost slots (index 0 and index
`local_n + 1`) keep the destination buffer's previous values, and the buffer
length is unchanged. -/
theorem C10_update_step_frame (old new : List Int) (ln j : Nat) (d : Int)
    (h : j = 0 ∨ ln < j) :
    (update_step old new ln).1.getD j d = new.getD j d ∧
    (update_step old new ln).1.length = new.length := by
  refine ⟨?_, update_aux_length ..⟩
  exact update_aux_frame old ln 1 new 0 j d (by omega)

/-- Witness for C10: ghost slots 0 and `local_n + 1` of the destination are
untouched on a concrete segment. -/
theorem C10_update_step_frame_witness :
    ((0 : Nat) = 0 ∨ (3 : Nat) < 0) ∧
    ((update_step [0, 1, 1, 0, 1] [9, 9, 9, 9, 9] 3).1.getD 0 7 = (9 : Int) ∧
      (update_step [0, 1, 1, 0, 1] [9, 9, 9, 9, 9] 3).1.length = 5) := by
  refine ⟨Or.inl rfl, ?_⟩
  have h := C10_update_step_frame [0, 1, 1, 0, 1] [9, 9, 9, 9, 9] 3 0 7 (Or.inl rfl)
  simpa using h

/-! ### Generic indexing helpers -/

theorem getD_map_range {α : Type} (f : Nat → α) (n r : Nat) (d : α) (h : r < n) :
    ((List.range n).map f).getD r d = f r := by
  simp [List.getD_eq_getElem?_getD, List.getElem?_map, List.getElem?_range h]

theorem getD_of_lt {α : Type} (l : List α) (r : Nat) (d : α) (h : r < l.length) :
    l.getD r d = l[r] := by
  rw [List.getD_eq_getElem?_getD, List.getElem?_eq_getElem h, Option.getD_some]

/-! ### The local car count is the sum of the owned cells -/

theorem count_aux_spec (road : List Int) (fuel : Nat) :
    ∀ (i : Nat) (c : Int),
      count_aux road fuel i c = c + ((road.drop i).take fuel).sum := by
  induction fuel with
  | zero => intro i c; simp [count_aux]
  | succ f ih =>
    intro i c
    rw [count_aux, ih]
    by_cases hi : i < road.length
    · rw [List.drop_eq_getElem_cons hi]
      rw [List.take_succ_cons, List.sum_cons, getD_of_lt _ _ _ hi]
      ring
    · have h1 : road.drop i = [] := List.drop_eq_nil_of_le (by omega)
      have h2 : road.drop (i + 1) = [] := List.drop_eq_nil_of_le (by omega)
      have h3 : road.getD i 0 = 0 := by
        rw [List.getD_eq_getElem?_getD, List.getElem?_eq_none (by omega)]; rfl
      rw [h1, h2, h3]
      simp

theorem count_cars_local_eq_sum (road : List Int) :
    count_cars_local road (road.length - 2) = (owned_of road).sum := by
  rw [count_cars_local, count_aux_spec, owned_of]
  omega

/-! ### Neighbor arithmetic -/

theorem neighborN_left (size r : Nat) (hr : r < size) :
    neighborN size r .left = (r + size - 1) % size := by
  unfold neighborN left_neighbor
  rw [Int.tmod_eq_emod (by omega) (by omega)]
  have h1 : ((r : Int) - 1 + size) = ((r + size - 1 : Nat) : Int) := by omega
  rw [h1, ← Int.natCast_mod, Int.toNat_natCast]

theorem neighborN_right (size r : Nat) (_hr : r < size) :
    neighborN size r .right = (r + 1) % size := by
  unfold neighborN right_neighbor
  rw [Int.tmod_eq_emod (by omega) (by omega)]
  have h1 : ((r : Int) + 1) = ((r + 1 : Nat) : Int) := by omega
  rw [h1, ← Int.natCast_mod, Int.toNat_natCast]

theorem neighborN_lt (size r : Nat) (hs : 1 ≤ size) (hr : r < size) (d : Dir) :
    neighborN size r d < size := by
  cases d
  · rw [neighborN_left _ _ hr]; exact Nat.mod_lt _ (by omega)
  · rw [neighborN_right _ _ hr]; exact Nat.mod_lt _ (by omega)

theorem mod_shift_left (size r : Nat) (h1 : 1 ≤ r) (h2 : r < size) :
    (r + size - 1) % size = r - 1 := by
  have h : r + size - 1 = size + (r - 1) := by omega
  rw [h, Nat.add_mod_left, Nat.mod_eq_of_lt (by omega)]

theorem mod_shift_left_zero (size : Nat) (h : 1 ≤ size) :
    (0 + size - 1) % size = size - 1 := by
  rw [Nat.zero_add, Nat.mod_eq_of_lt (by omega)]

theorem mod_shift_right (size r : Nat) (h : r + 1 < size) :
    (r + 1) % size = r + 1 := Nat.mod_eq_of_lt h

theorem mod_shift_right_last (size r : Nat) (h : r + 1 = size) :
    (r + 1) % size = 0 := by rw [h, Nat.mod_self]

/-- Claim C8: the topology resolver computes
`left_neighbor = (rank - 1 + size) mod size` and
`right_neighbor = (rank + 1) mod size` (mathematical mod, i.e. `Int.emod`),
and for `size = 1` both neighbors are the worker's own rank. -/
theorem C8_topology (rank size : Int) (h0 : 0 ≤ rank) (h1 : rank < size) :
    left_neighbor rank size = (rank - 1 + size) % size ∧
    right_neighbor rank size = (rank + 1) % size ∧
    (size = 1 → left_neighbor rank size = rank ∧ right_neighbor rank size = rank) := by
  refine ⟨Int.tmod_eq_emod (by omega) (by omega),
    Int.tmod_eq_emod (by omega) (by omega), ?_⟩
  intro hs
  subst hs
  have h2 : rank = 0 := by omega
  subst h2
  exact ⟨by decide, by decide⟩

/-- Witness for C8 at `rank = 2`, `size = 5`. -/
theorem C8_topology_witness :
    ((0 : Int) ≤ 2 ∧ (2 : Int) < 5) ∧
    (left_neighbor 2 5 = (2 - 1 + 5) % 5 ∧
      right_neighbor 2 5 = (2 + 1) % 5 ∧
      ((5 : Int) = 1 → left_neighbor 2 5 = 2 ∧ right_neighbor 2 5 = 2)) :=
  ⟨⟨by decide, by decide⟩, C8_topology 2 5 (by decide) (by decide)⟩

/-- Claim C6 counterexample: started with road length `-3` and iteration
count `5`, the program does not reject the configuration at startup — no
usage message is printed and no validation exit occurs; argument handling
simply proceeds with the parsed values. -/
theorem C6_counterexample :
    (startup (some (-3)) (some 5)).isUsageExit = false ∧
    startup (some (-3)) (some 5) = .proceed (-3) 5 := ⟨rfl, rfl⟩

/-- Claim C6 amended: main performs no startup validation of its arguments:
for every combination of CLI arguments (present or defaulted, positive or
not), there is no usage message and no validation-triggered exit; argument
handling proceeds with exactly the parsed values.  This says nothing about
how the run later ends — with a non-positive road length the subsequent
buffer allocation can fail, in which case the group is aborted with a
non-zero code (`MPI_Abort`, line 121). -/
theorem C6_no_validation (arg1 arg2 : Option Int) :
    (startup arg1 arg2).isUsageExit = false ∧
    startup arg1 arg2 = .proceed (arg1.getD 1000) (arg2.getD 1000) := ⟨rfl, rfl⟩

/-! ### Halo exchange lemmas -/

theorem apply_phase_length (segs : List (List Int)) (ph : Phase) :
    (apply_phase segs ph).length = segs.length := by
  simp [apply_phase]

theorem apply_phase_getD (segs : List (List Int)) (ph : Phase) (r : Nat)
    (h : r < segs.length) :
    (apply_phase segs ph).getD r []
      = (segs.getD r []).set (ph.recvSlot.resolve ((segs.getD r []).length - 2))
          ((segs.getD (neighborN segs.length r ph.recvFrom) []).getD
            (ph.sendSlot.resolve
              ((segs.getD (neighborN segs.length r ph.recvFrom) []).length - 2)) 0) := by
  unfold apply_phase
  exact getD_map_range _ _ _ _ h

theorem apply_phase_seglen (segs : List (List Int)) (ph : Phase) (r : Nat)
    (h : r < segs.length) :
    ((apply_phase segs ph).getD r []).length = (segs.getD r []).length := by
  rw [apply_phase_getD _ _ _ h, List.length_set]

/-- `exchange_borders` is the first sub-phase followed by the second. -/
theorem exchange_all_eq (segs : List (List Int)) :
    exchange_all segs
      = apply_phase (apply_phase segs ⟨.s1, .left, .sLn1, .right⟩)
          ⟨.sLn, .right, .s0, .left⟩ := rfl

/-- The first sub-phase populates the right ghost slot of every rank with the
right neighbor's cell at index 1, and touches nothing else of that rank. -/
theorem phase1_right_ghost (segs : List (List Int)) (r : Nat)
    (hr : r < segs.length) (hlen : 2 ≤ (segs.getD r []).length) :
    ((apply_phase segs ⟨.s1, .left, .sLn1, .right⟩).getD r []).getD
        ((segs.getD r []).length - 2 + 1) 0
      = (segs.getD (neighborN segs.length r .right) []).getD 1 0 := by
  rw [apply_phase_getD _ _ _ hr]
  simp only [Slot.resolve]
  rw [List.getD_eq_getElem?_getD, List.getElem?_set_self (by omega),
    Option.getD_some]

/-- The first sub-phase leaves every slot other than `local_n + 1`
unchanged. -/
theorem phase1_frame (segs : List (List Int)) (r : Nat) (hr : r < segs.length)
    (j : Nat) (hj : j ≠ (segs.getD r []).length - 2 + 1) :
    ((apply_phase segs ⟨.s1, .left, .sLn1, .right⟩).getD r []).getD j 0
      = (segs.getD r []).getD j 0 := by
  rw [apply_phase_getD _ _ _ hr]
  simp only [Slot.resolve]
  rw [List.getD_eq_getElem?_getD, List.getElem?_set_ne (by omega),
    ← List.getD_eq_getElem?_getD]

/-- The second sub-phase populates the left ghost slot of every rank with the
left neighbor's cell at its index `local_n`, reading the state left by the
first sub-phase. -/
theorem phase2_left_ghost (segs : List (List Int)) (r : Nat)
    (hr : r < segs.length) (hlen : 1 ≤ (segs.getD r []).length) :
    ((apply_phase segs ⟨.sLn, .right, .s0, .left⟩).getD r []).getD 0 0
      = (segs.getD (neighborN segs.length r .left) []).getD
          ((segs.getD (neighborN segs.length r .left) []).length - 2) 0 := by
  rw [apply_phase_getD _ _ _ hr]
  simp only [Slot.resolve]
  rw [List.getD_eq_getElem?_getD, List.getElem?_set_self (by omega),
    Option.getD_some]

/-- The second sub-phase leaves every slot other than 0 unchanged. -/
theorem phase2_frame (segs : List (List Int)) (r : Nat) (hr : r < segs.length)
    (j : Nat) (hj : j ≠ 0) :
    ((apply_phase segs ⟨.sLn, .right, .s0, .left⟩).getD r []).getD j 0
      = (segs.getD r []).getD j 0 := by
  rw [apply_phase_getD _ _ _ hr]
  simp only [Slot.resolve]
  rw [List.getD_eq_getElem?_getD, List.getElem?_set_ne (by omega),
    ← List.getD_eq_getElem?_getD]

theorem exchange_all_length (segs : List (List Int)) :
    (exchange_all segs).length = segs.length := by
  rw [exchange_all_eq, apply_phase_length, apply_phase_length]

theorem exchange_all_seglen (segs : List (List Int)) (r : Nat)
    (hr : r < segs.length) :
    ((exchange_all segs).getD r []).length = (segs.getD r []).length := by
  rw [exchange_all_eq, apply_phase_seglen _ _ _ (by rwa [apply_phase_length]),
    apply_phase_seglen _ _ _ hr]

/-- After the whole exchange, the left ghost slot of rank `r` holds the left
neighbor's cell at that neighbor's index `local_n`. -/
theorem exchange_ghost0 (segs : List (List Int)) (r : Nat)
    (hr : r < segs.length) (hlen : ∀ s ∈ segs, 2 ≤ s.length) (hs : 1 ≤ segs.length) :
    ((exchange_all segs).getD r []).getD 0 0
      = (segs.getD (neighborN segs.length r .left) []).getD
          ((segs.getD (neighborN segs.length r .left) []).length - 2) 0 := by
  have hap : (apply_phase segs ⟨.s1, .left, .sLn1, .right⟩).length = segs.length :=
    apply_phase_length ..
  have hrl : r < (apply_phase segs ⟨.s1, .left, .sLn1, .right⟩).length := by rwa [hap]
  have hmem : segs.getD r [] ∈ segs := by
    rw [getD_of_lt _ _ _ hr]; exact List.getElem_mem hr
  have h2 : 2 ≤ (segs.getD r []).length := hlen _ hmem
  rw [exchange_all_eq]
  rw [phase2_left_ghost _ _ hrl (by rw [apply_phase_seglen _ _ _ hr]; omega)]
  rw [hap]
  have hlnlt : neighborN segs.length r Dir.left < segs.length :=
    neighborN_lt _ _ hs hr _
  rw [apply_phase_seglen _ _ _ hlnlt]
  exact phase1_frame _ _ hlnlt _ (by omega)

/-- After the whole exchange, the right ghost slot of rank `r` holds the right
neighbor's cell at index 1. -/
theorem exchange_ghost1 (segs : List (List Int)) (r : Nat)
    (hr : r < segs.length) (hlen : ∀ s ∈ segs, 2 ≤ s.length) :
    ((exchange_all segs).getD r []).getD ((segs.getD r []).length - 2 + 1) 0
      = (segs.getD (neighborN segs.length r .right) []).getD 1 0 := by
  have hmem : segs.getD r [] ∈ segs := by
    rw [getD_of_lt _ _ _ hr]; exact List.getElem_mem hr
  have h2 : 2 ≤ (segs.getD r []).length := hlen _ hmem
  rw [exchange_all_eq]
  rw [phase2_frame _ _ (by rwa [apply_phase_length]) _ (by omega)]
  exact phase1_right_ghost _ _ hr h2

/-- After the whole exchange, the owned cells `1 .. local_n` of every rank are
unchanged. -/
theorem exchange_owned (segs : List (List Int)) (r : Nat)
    (hr : r < segs.length) (i : Nat) (h1 : 1 ≤ i)
    (h2 : i ≤ (segs.getD r []).length - 2) :
    ((exchange_all segs).getD r []).getD i 0 = (segs.getD r []).getD i 0 := by
  rw [exchange_all_eq]
  rw [phase2_frame _ _ (by rwa [apply_phase_length]) _ (by omega)]
  exact phase1_frame _ _ hr _ (by omega)

/-- Claim C1: after `exchange_borders` completes (and hence before
`update_step` runs), for every worker `r < size` the left ghost slot (index 0)
holds the cell at index `local_n` of worker `(r - 1 + size) mod size` — written
`(r + size - 1) % size` in natural arithmetic — and the right ghost slot
(index `local_n + 1`) holds the cell at index 1 of worker `(r + 1) mod size`;
this holds for every `size ≥ 1`, including `size = 1` where both neighbors are
`r` itself.  A segment's `local_n` is its length minus 2. -/
theorem C1_ghost_cells (segs : List (List Int)) (size : Nat)
    (hsz : segs.length = size) (hs : 1 ≤ size)
    (hlen : ∀ s ∈ segs, 2 ≤ s.length) (r : Nat) (hr : r < size) :
    ((exchange_all segs).getD r []).getD 0 0
        = (segs.getD ((r + size - 1) % size) []).getD
            ((segs.getD ((r + size - 1) % size) []).length - 2) 0 ∧
    ((exchange_all segs).getD r []).getD ((segs.getD r []).length - 2 + 1) 0
        = (segs.getD ((r + 1) % size) []).getD 1 0 := by
  subst hsz
  constructor
  · rw [exchange_ghost0 _ _ hr hlen hs, neighborN_left _ _ hr]
  · rw [exchange_ghost1 _ _ hr hlen, neighborN_right _ _ hr]

/-- Witness for C1 on a concrete two-worker state. -/
theorem C1_ghost_cells_witness :
    (([[0, 1, 2, 3, 0], [0, 4, 5, 0]] : List (List Int)).length = 2 ∧
      (1 : Nat) ≤ 2 ∧
      (∀ s ∈ ([[0, 1, 2, 3, 0], [0, 4, 5, 0]] : List (List Int)), 2 ≤ s.length) ∧
      (0 : Nat) < 2) ∧
    (((exchange_all [[0, 1, 2, 3, 0], [0, 4, 5, 0]]).getD 0 []).getD 0 0
        = (([[0, 1, 2, 3, 0], [0, 4, 5, 0]] : List (List Int)).getD ((0 + 2 - 1) % 2) []).getD
            ((([[0, 1, 2, 3, 0], [0, 4, 5, 0]] : List (List Int)).getD ((0 + 2 - 1) % 2) []).length - 2) 0 ∧
      ((exchange_all [[0, 1, 2, 3, 0], [0, 4, 5, 0]]).getD 0 []).getD
          ((([[0, 1, 2, 3, 0], [0, 4, 5, 0]] : List (List Int)).getD 0 []).length - 2 + 1) 0
        = (([[0, 1, 2, 3, 0], [0, 4, 5, 0]] : List (List Int)).getD ((0 + 1) % 2) []).getD 1 0) :=
  ⟨⟨rfl, by decide, by decide, by decide⟩,
    C1_ghost_cells [[0, 1, 2, 3, 0], [0, 4, 5, 0]] 2 rfl (by decide) (by decide) 0 (by decide)⟩

/-- The sub-phase order claimed by the specification (rightmost cell to the
right neighbor first, then leftmost cell to the left neighbor), written down
from the spec's words for comparison with the source's `exchange_schedule`. -/
def spec_claimed_schedule : List Phase :=
  [⟨.sLn, .right, .s0, .left⟩, ⟨.s1, .left, .sLn1, .right⟩]

/-- Claim C7 counterexample: the code performs the two sub-phases in the
opposite order from the claim — `exchange_borders` first sends index 1 to the
left neighbor (receiving the right ghost), and only then sends index
`local_n` to the right neighbor (receiving the left ghost). -/
theorem C7_counterexample : exchange_schedule ≠ spec_claimed_schedule := by decide

/-- Claim C7 amended: the halo exchange is performed in two sub-phases, in
this order: the first sub-phase sends the leftmost owned cell (index 1) to
`left_neighbor` and concurrently receives into the right ghost slot (index
`local_n + 1`) from `right_neighbor`; the second sub-phase sends the
rightmost owned cell (index `local_n`) to `right_neighbor` and concurrently
receives into the left ghost slot (index 0) from `left_neighbor`. -/
theorem C7_exchange_order (segs : List (List Int)) (size : Nat)
    (hsz : segs.length = size) (hs : 1 ≤ size)
    (hlen : ∀ s ∈ segs, 2 ≤ s.length) (r : Nat) (hr : r < size) :
    exchange_schedule.getD 0 ⟨.s0, .left, .s0, .left⟩ = ⟨.s1, .left, .sLn1, .right⟩ ∧
    exchange_schedule.getD 1 ⟨.s0, .left, .s0, .left⟩ = ⟨.sLn, .right, .s0, .left⟩ ∧
    exchange_all segs
      = apply_phase (apply_phase segs ⟨.s1, .left, .sLn1, .right⟩)
          ⟨.sLn, .right, .s0, .left⟩ ∧
    ((apply_phase segs ⟨.s1, .left, .sLn1, .right⟩).getD r []).getD
        ((segs.getD r []).length - 2 + 1) 0
      = (segs.getD ((r + 1) % size) []).getD 1 0 ∧
    ((exchange_all segs).getD r []).getD 0 0
      = (segs.getD ((r + size - 1) % size) []).getD
          ((segs.getD ((r + size - 1) % size) []).length - 2) 0 := by
  subst hsz
  have hmem : segs.getD r [] ∈ segs := by
    rw [getD_of_lt _ _ _ hr]; exact List.getElem_mem hr
  refine ⟨rfl, rfl, exchange_all_eq segs, ?_, ?_⟩
  · rw [phase1_right_ghost _ _ hr (hlen _ hmem), neighborN_right _ _ hr]
  · rw [exchange_ghost0 _ _ hr hlen hs, neighborN_left _ _ hr]

/-- Witness for the amended C7 on a concrete two-worker state. -/
theorem C7_exchange_order_witness :
    (([[0, 1, 2, 3, 0], [0, 4, 5, 0]] : List (List Int)).length = 2 ∧
      (1 : Nat) ≤ 2 ∧
      (∀ s ∈ ([[0, 1, 2, 3, 0], [0, 4, 5, 0]] : List (List Int)), 2 ≤ s.length) ∧
      (1 : Nat) < 2) ∧
    (exchange_schedule.getD 0 ⟨.s0, .left, .s0, .left⟩ = ⟨.s1, .left, .sLn1, .right⟩ ∧
      exchange_schedule.getD 1 ⟨.s0, .left, .s0, .left⟩ = ⟨.sLn, .right, .s0, .left⟩ ∧
      exchange_all [[0, 1, 2, 3, 0], [0, 4, 5, 0]]
        = apply_phase (apply_phase [[0, 1, 2, 3, 0], [0, 4, 5, 0]] ⟨.s1, .left, .sLn1, .right⟩)
            ⟨.sLn, .right, .s0, .left⟩ ∧
      ((apply_phase [[0, 1, 2, 3, 0], [0, 4, 5, 0]] ⟨.s1, .left, .sLn1, .right⟩).getD 1 []).getD
          ((([[0, 1, 2, 3, 0], [0, 4, 5, 0]] : List (List Int)).getD 1 []).length - 2 + 1) 0
        = (([[0, 1, 2, 3, 0], [0, 4, 5, 0]] : List (List Int)).getD ((1 + 1) % 2) []).getD 1 0 ∧
      ((exchange_all [[0, 1, 2, 3, 0], [0, 4, 5, 0]]).getD 1 []).getD 0 0
        = (([[0, 1, 2, 3, 0], [0, 4, 5, 0]] : List (List Int)).getD ((1 + 2 - 1) % 2) []).getD
            ((([[0, 1, 2, 3, 0], [0, 4, 5, 0]] : List (List Int)).getD ((1 + 2 - 1) % 2) []).length - 2) 0) :=
  ⟨⟨rfl, by decide, by decide, by decide⟩,
    C7_exchange_order [[0, 1, 2, 3, 0], [0, 4, 5, 0]] 2 rfl (by decide) (by decide) 1 (by decide)⟩

/-! ### Partition arithmetic -/

theorem offset_closed (n size : Nat) :
    ∀ r, offset n size r = r * (n / size) + min r (n % size) := by
  intro r
  induction r with
  | zero => simp [offset]
  | succ r ih =>
    rw [offset, ih, local_n]
    have hmin : min (r + 1) (n % size)
        = min r (n % size) + (if r < n % size then 1 else 0) := by
      by_cases h : r < n % size <;> simp [h] <;> omega
    rw [Nat.succ_mul, hmin]
    ring

theorem offset_size (n size : Nat) (hs : 1 ≤ size) : offset n size size = n := by
  rw [offset_closed]
  have h1 : n % size < size := Nat.mod_lt _ (by omega)
  have h2 : min size (n % size) = n % size := by omega
  rw [h2]
  exact Nat.div_add_mod n size

theorem offset_eq_sum (n size : Nat) :
    ∀ r, offset n size r = ((List.range r).map (local_n n size)).sum := by
  intro r
  induction r with
  | zero => simp [offset]
  | succ r ih =>
    rw [offset, ih, List.range_succ, List.map_append, List.sum_append]
    simp

theorem length_filter_lt (m : Nat) :
    ∀ size, m ≤ size →
      ((List.range size).filter (fun r => decide (r < m))).length = m := by
  intro size
  induction size with
  | zero => intro h; simp at h; simp [h]
  | succ s ih =>
    intro h
    by_cases hm : m ≤ s
    · have hsingle : (List.filter (fun r => decide (r < m)) [s]).length = 0 := by
        have hd : decide (s < m) = false := by simp; omega
        simp [List.filter, hd]
      rw [List.range_succ, List.filter_append, List.length_append, ih hm, hsingle]
      omega
    · have hms : m = s + 1 := by omega
      have hall : ∀ a ∈ List.range (s + 1), decide (a < m) = true := by
        intro a ha
        rw [List.mem_range] at ha
        simp
        omega
      rw [List.filter_eq_self.mpr hall, List.length_range, hms]

/-- Claim C5: the partitioning gives rank `r` `local_n = n / size` plus one
extra cell exactly when `r < n mod size`; the per-worker sizes sum to `n`,
none is below `n / size`, exactly `n mod size` workers have the extra cell,
and the gather recomputes identical counts with `displs[i]` the sum of
`recvcounts[0..i-1]`. -/
theorem C5_partitioning (n size : Nat) (_hn : 1 ≤ n) (hs : 1 ≤ size) :
    recvcounts n size = (List.range size).map (local_n n size) ∧
    ((List.range size).map (local_n n size)).sum = n ∧
    (∀ r, n / size ≤ local_n n size r) ∧
    ((List.range size).filter
        (fun r => decide (local_n n size r = n / size + 1))).length = n % size ∧
    (∀ i, i < size → (displs n size).getD i 0 = ((recvcounts n size).take i).sum) := by
  refine ⟨rfl, ?_, ?_, ?_, ?_⟩
  · rw [← offset_eq_sum]
    exact offset_size n size hs
  · intro r
    rw [local_n]
    exact Nat.le_add_right _ _
  · have hcong : ∀ r ∈ List.range size,
        decide (local_n n size r = n / size + 1) = decide (r < n % size) := by
      intro r _
      by_cases h : r < n % size
      · simp [local_n, h]
      · simp [local_n, h]
    rw [List.filter_congr hcong]
    exact length_filter_lt _ _ (le_of_lt (Nat.mod_lt _ (by omega)))
  · intro i hi
    rw [displs, getD_map_range _ _ _ _ hi]
    have h1 : (recvcounts n size).take i = (List.range i).map (local_n n size) := by
      rw [recvcounts, ← List.map_take, List.take_range]
      have hmin : min i size = i := by omega
      rw [hmin]
      rfl
    rw [h1, ← offset_eq_sum]

/-- Witness for C5 at `n = 7`, `size = 3`. -/
theorem C5_partitioning_witness :
    ((1 : Nat) ≤ 7 ∧ (1 : Nat) ≤ 3) ∧
    (recvcounts 7 3 = (List.range 3).map (local_n 7 3) ∧
      ((List.range 3).map (local_n 7 3)).sum = 7 ∧
      (∀ r, 7 / 3 ≤ local_n 7 3 r) ∧
      ((List.range 3).filter
          (fun r => decide (local_n 7 3 r = 7 / 3 + 1))).length = 7 % 3 ∧
      (∀ i, i < 3 → (displs 7 3).getD i 0 = ((recvcounts 7 3).take i).sum)) :=
  ⟨⟨by decide, by decide⟩, C5_partitioning 7 3 (by decide) (by decide)⟩

/-! ### Refinement: the partitioned run against the sequential reference -/

theorem seq_update_length (old : List Int) : (seq_update old).length = old.length := by
  simp [seq_update]

theorem seq_update_getD (old : List Int) (p : Nat) (hp : p < old.length) :
    (seq_update old).getD p 0
      = rule (old.getD ((p + old.length - 1) % old.length) 0) (old.getD p 0)
          (old.getD ((p + 1) % old.length) 0) := by
  rw [seq_update, getD_map_range _ _ _ _ hp]

theorem seq_iterate_length (lat : List Int) (k : Nat) :
    (seq_update^[k] lat).length = lat.length := by
  induction k with
  | zero => rfl
  | succ k ih => rw [Function.iterate_succ_apply', seq_update_length, ih]

theorem getD_map_fst (st : List WState) (r : Nat) (h : r < st.length) :
    (st.map Prod.fst).getD r [] = (st.getD r ([], [])).1 := by
  rw [List.getD_eq_getElem?_getD, List.getElem?_map, List.getElem?_eq_getElem h,
    getD_of_lt _ _ _ h]
  rfl

theorem map_eq_range_map {α β : Type} (g : α → β) (l : List α) (d : α) :
    l.map g = (List.range l.length).map (fun r => g (l.getD r d)) := by
  apply List.ext_getElem (by simp)
  intro k h1 h2
  simp only [List.getElem_map, List.getElem_range]
  rw [getD_of_lt _ _ _ (by simpa using h1)]

theorem local_n_pos (n size r : Nat) (hs : 1 ≤ size) (hsn : size ≤ n) :
    1 ≤ local_n n size r := by
  have h := (Nat.one_le_div_iff (by omega : 0 < size)).mpr hsn
  rw [local_n]
  omega

theorem offset_mono (n size : Nat) : ∀ a b, a ≤ b → offset n size a ≤ offset n size b := by
  intro a b
  induction b with
  | zero =>
    intro h
    have ha : a = 0 := by omega
    rw [ha]
  | succ b ih =>
    intro h
    by_cases hab : a = b + 1
    · rw [hab]
    · calc offset n size a ≤ offset n size b := ih (by omega)
        _ ≤ offset n size (b + 1) := by rw [offset]; omega

theorem offset_succ_le (n size r : Nat) (hs : 1 ≤ size) (hr : r < size) :
    offset n size r + local_n n size r ≤ n := by
  have h1 : offset n size (r + 1) ≤ offset n size size := offset_mono _ _ _ _ (by omega)
  rw [offset_size _ _ hs] at h1
  simpa [offset] using h1

theorem mod_wrap (a n : Nat) (h1 : 1 ≤ a) (h2 : a ≤ n) : (a + n - 1) % n = a - 1 := by
  have h : a + n - 1 = n + (a - 1) := by omega
  rw [h, Nat.add_mod_left, Nat.mod_eq_of_lt (by omega)]

/-- The partitioned state `st` is aligned with the conceptual global lattice
`lat`: one entry per rank, both buffers sized `local_n + 2`, and the owned
cells of each current buffer hold the rank's slice of `lat`. -/
def Aligned (lat : List Int) (size : Nat) (st : List WState) : Prop :=
  st.length = size ∧
  ∀ r, r < size →
    (st.getD r ([], [])).1.length = local_n lat.length size r + 2 ∧
    (st.getD r ([], [])).2.length = local_n lat.length size r + 2 ∧
    ∀ j, j < local_n lat.length size r →
      (st.getD r ([], [])).1.getD (j + 1) 0 = lat.getD (offset lat.length size r + j) 0

theorem init_aligned (lat : List Int) (size : Nat) (hs : 1 ≤ size) :
    Aligned lat size (init_state lat size) := by
  refine ⟨by simp [init_state], ?_⟩
  intro r hr
  have hgd : (init_state lat size).getD r ([], []) = init_worker lat size r := by
    rw [init_state]
    exact getD_map_range _ _ _ _ hr
  rw [hgd]
  have hof : offset lat.length size r + local_n lat.length size r ≤ lat.length :=
    offset_succ_le _ _ _ hs hr
  have hown : ((lat.drop (offset lat.length size r)).take
      (local_n lat.length size r)).length = local_n lat.length size r := by
    simp only [List.length_take, List.length_drop]
    omega
  refine ⟨?_, ?_, ?_⟩
  · show (0 :: ((lat.drop (offset lat.length size r)).take
        (local_n lat.length size r)) ++ [0]).length = local_n lat.length size r + 2
    simp only [List.length_cons, List.length_append, hown, List.length_nil]
  · show (List.replicate (local_n lat.length size r + 2) (0 : Int)).length
        = local_n lat.length size r + 2
    simp
  · intro j hj
    show (0 :: ((lat.drop (offset lat.length size r)).take
        (local_n lat.length size r)) ++ [0]).getD (j + 1) 0 = _
    rw [List.getD_eq_getElem?_getD,
      List.getElem?_append_left (by simp only [List.length_cons, hown]; omega),
      List.getElem?_cons_succ, List.getElem?_take, if_pos hj, List.getElem?_drop,
      List.getD_eq_getElem?_getD]

theorem offset_pos (n size r : Nat) (hs : 1 ≤ size) (hsn : size ≤ n)
    (hr : 1 ≤ r) : 1 ≤ offset n size r := by
  have h1 : offset n size 1 ≤ offset n size r := offset_mono _ _ _ _ hr
  have h2 : offset n size 1 = local_n n size 0 := by simp [offset]
  have h3 := local_n_pos n size 0 hs hsn
  omega

theorem offset_le_n (n size r : Nat) (hs : 1 ≤ size) (hr : r ≤ size) :
    offset n size r ≤ n := by
  have h1 : offset n size r ≤ offset n size size := offset_mono _ _ _ _ hr
  rwa [offset_size _ _ hs] at h1

/-- Central lemma: in an aligned state, after the halo exchange every slot
`i ≤ local_n + 1` of rank `r`'s segment holds the lattice cell at ring index
`(offset r + i + n - 1) % n` (the owned cells by alignment, the two ghost
slots by the exchange and ring arithmetic). -/
theorem exchange_getD_lat (lat : List Int) (size : Nat) (st : List WState)
    (hA : Aligned lat size st) (hs : 1 ≤ size) (hsn : size ≤ lat.length)
    (r : Nat) (hr : r < size) (i : Nat)
    (hi : i ≤ local_n lat.length size r + 1) :
    ((exchange_all (st.map Prod.fst)).getD r []).getD i 0
      = lat.getD ((offset lat.length size r + i + lat.length - 1) % lat.length) 0 := by
  obtain ⟨hst, hw⟩ := hA
  have hsegl : (st.map Prod.fst).length = size := by rw [List.length_map, hst]
  have hrs : r < (st.map Prod.fst).length := by omega
  have hsegget : ∀ q, q < size → (st.map Prod.fst).getD q [] = (st.getD q ([], [])).1 := by
    intro q hq
    exact getD_map_fst st q (by omega)
  have hseglen : ∀ q, q < size →
      ((st.map Prod.fst).getD q []).length = local_n lat.length size q + 2 := by
    intro q hq
    rw [hsegget q hq]
    exact (hw q hq).1
  have h2 : ∀ s ∈ st.map Prod.fst, 2 ≤ s.length := by
    intro s hmem
    obtain ⟨k, hk, hks⟩ := List.mem_iff_getElem.mp hmem
    have hk' : k < size := by omega
    rw [← hks, ← getD_of_lt _ _ ([]) hk, hseglen k hk']
    omega
  have hnpos : 1 ≤ lat.length := le_trans hs hsn
  have hlnpos : ∀ q, 1 ≤ local_n lat.length size q := fun q =>
    local_n_pos lat.length size q hs hsn
  rcases Nat.eq_zero_or_pos i with hi0 | hi1
  · -- the left ghost slot
    subst hi0
    rw [exchange_ghost0 _ _ hrs h2 (by omega), hsegl, neighborN_left _ _ hr]
    rcases Nat.eq_zero_or_pos r with hr0 | hr1
    · subst hr0
      rw [mod_shift_left_zero _ hs]
      have hlt : size - 1 < size := by omega
      rw [hsegget _ hlt, (hw _ hlt).1, Nat.add_sub_cancel]
      have hj : local_n lat.length size (size - 1)
          = (local_n lat.length size (size - 1) - 1) + 1 := by
        have := hlnpos (size - 1)
        omega
      rw [hj, (hw _ hlt).2.2 _ (by omega)]
      have hoff : offset lat.length size (size - 1)
          + (local_n lat.length size (size - 1) - 1) = lat.length - 1 := by
        have h3 : offset lat.length size ((size - 1) + 1)
            = offset lat.length size (size - 1) + local_n lat.length size (size - 1) := rfl
        have h4 : (size - 1) + 1 = size := by omega
        rw [h4] at h3
        rw [offset_size _ _ hs] at h3
        have := hlnpos (size - 1)
        omega
      rw [hoff]
      have hidx : (offset lat.length size 0 + 0 + lat.length - 1) % lat.length
          = lat.length - 1 := by
        have h5 : offset lat.length size 0 = 0 := rfl
        have h6 : offset lat.length size 0 + 0 + lat.length - 1 = lat.length - 1 := by
          omega
        rw [h6, Nat.mod_eq_of_lt (by omega)]
      rw [hidx]
    · have hl : (r + size - 1) % size = r - 1 := mod_shift_left _ _ hr1 hr
      have hlt : r - 1 < size := by omega
      rw [hl, hsegget _ hlt, (hw _ hlt).1, Nat.add_sub_cancel]
      have hj : local_n lat.length size (r - 1)
          = (local_n lat.length size (r - 1) - 1) + 1 := by
        have := hlnpos (r - 1)
        omega
      rw [hj, (hw _ hlt).2.2 _ (by omega)]
      have hoff : offset lat.length size (r - 1)
          + (local_n lat.length size (r - 1) - 1) = offset lat.length size r - 1 := by
        have h3 : offset lat.length size ((r - 1) + 1)
            = offset lat.length size (r - 1) + local_n lat.length size (r - 1) := rfl
        have h4 : (r - 1) + 1 = r := by omega
        rw [h4] at h3
        have := hlnpos (r - 1)
        omega
      have hidx : (offset lat.length size r + 0 + lat.length - 1) % lat.length
          = offset lat.length size r - 1 := by
        rw [Nat.add_zero]
        exact mod_wrap _ _ (offset_pos _ _ _ hs hsn hr1) (offset_le_n _ _ _ hs (by omega))
      rw [hoff, hidx]
  · rcases Nat.lt_or_ge i (local_n lat.length size r + 1) with hiown | high
    · -- an owned cell
      rw [exchange_owned _ _ hrs i hi1 (by rw [hseglen r hr]; omega)]
      rw [hsegget r hr]
      have hj : i = (i - 1) + 1 := by omega
      rw [hj, (hw r hr).2.2 _ (by omega)]
      have hidx : (offset lat.length size r + ((i - 1) + 1) + lat.length - 1) % lat.length
          = offset lat.length size r + (i - 1) := by
        have ha : 1 ≤ offset lat.length size r + ((i - 1) + 1) := by omega
        have hb : offset lat.length size r + ((i - 1) + 1) ≤ lat.length := by
          have := offset_succ_le lat.length size r hs hr
          omega
        rw [mod_wrap _ _ ha hb]
        omega
      rw [hidx]
    · -- the right ghost slot
      have hieq : i = local_n lat.length size r + 1 := by omega
      subst hieq
      have hgl := exchange_ghost1 (st.map Prod.fst) r hrs h2
      rw [hseglen r hr, Nat.add_sub_cancel] at hgl
      rw [hgl, hsegl, neighborN_right _ _ hr]
      rcases Nat.lt_or_ge (r + 1) size with hlast | hlast
      · rw [mod_shift_right _ _ hlast, hsegget _ hlast]
        have hown0 := (hw _ hlast).2.2 0 (by have := hlnpos (r + 1); omega)
        simp only [Nat.zero_add, Nat.add_zero] at hown0
        rw [hown0]
        have hidx : (offset lat.length size r + (local_n lat.length size r + 1)
              + lat.length - 1) % lat.length = offset lat.length size (r + 1) := by
          -- `offset (r+1) = offset r + local_n r` by definition
          have h3 : offset lat.length size (r + 1)
              = offset lat.length size r + local_n lat.length size r := rfl
          have heq : offset lat.length size r + (local_n lat.length size r + 1)
              + lat.length - 1 = offset lat.length size (r + 1) + lat.length := by omega
          rw [heq, Nat.add_mod_right, Nat.mod_eq_of_lt]
          have h5 := offset_succ_le lat.length size (r + 1) hs hlast
          have := hlnpos (r + 1)
          omega
        rw [hidx]
      · have hr1 : r + 1 = size := by omega
        rw [mod_shift_right_last _ _ hr1, hsegget _ (by omega)]
        have hown0 := (hw _ (by omega : 0 < size)).2.2 0 (by have := hlnpos 0; omega)
        simp only [Nat.zero_add, Nat.add_zero] at hown0
        rw [hown0]
        have hidx : (offset lat.length size r + (local_n lat.length size r + 1)
              + lat.length - 1) % lat.length = offset lat.length size 0 := by
          have h3 : offset lat.length size (r + 1)
              = offset lat.length size r + local_n lat.length size r := rfl
          rw [hr1, offset_size _ _ hs] at h3
          have heq : offset lat.length size r + (local_n lat.length size r + 1)
              + lat.length - 1 = lat.length + lat.length := by omega
          have h5 : offset lat.length size 0 = 0 := rfl
          rw [heq, h5, Nat.add_mod_right, Nat.mod_self]
        rw [hidx]

/-- One iteration of the main loop takes a state aligned with `lat` to a state
aligned with `seq_update lat`: the partitioned step simulates the sequential
reference step. -/
theorem step_aligned (lat : List Int) (size : Nat) (st : List WState)
    (hA : Aligned lat size st) (hs : 1 ≤ size) (hsn : size ≤ lat.length) :
    Aligned (seq_update lat) size (global_step st) := by
  have hst := hA.1
  have hw := hA.2
  have hnpos : 1 ≤ lat.length := le_trans hs hsn
  refine ⟨by simp [global_step, hst], ?_⟩
  simp only [seq_update_length]
  intro r hr
  have hrst : r < st.length := by omega
  have hsegl : (st.map Prod.fst).length = size := by rw [List.length_map, hst]
  have hgd : (global_step st).getD r ([], [])
      = ((update_step ((exchange_all (st.map Prod.fst)).getD r [])
            ((st.getD r ([], [])).2)
            (((exchange_all (st.map Prod.fst)).getD r []).length - 2)).1,
          (exchange_all (st.map Prod.fst)).getD r []) := by
    simp only [global_step]
    exact getD_map_range _ _ _ _ hrst
  have hexlen : ((exchange_all (st.map Prod.fst)).getD r []).length
      = local_n lat.length size r + 2 := by
    rw [exchange_all_seglen _ _ (by omega), getD_map_fst _ _ hrst]
    exact (hw r hr).1
  have hln2 : ((exchange_all (st.map Prod.fst)).getD r []).length - 2
      = local_n lat.length size r := by omega
  have hnxtlen : (st.getD r ([], [])).2.length = local_n lat.length size r + 2 :=
    (hw r hr).2.1
  rw [hgd]
  refine ⟨?_, ?_, ?_⟩
  · show (update_step _ _ _).1.length = _
    rw [update_step, update_aux_length, hnxtlen]
  · exact hexlen
  · intro j hj
    have hp : offset lat.length size r + j < lat.length := by
      have := offset_succ_le lat.length size r hs hr
      omega
    show (update_step _ _ _).1.getD (j + 1) 0 = _
    rw [hln2, update_step,
      update_aux_value _ _ _ _ _ _ _ (by omega) (by omega) (by omega)]
    have hv0 := exchange_getD_lat lat size st hA hs hsn r hr j (by omega)
    have hv1 := exchange_getD_lat lat size st hA hs hsn r hr (j + 1) (by omega)
    have hv2 := exchange_getD_lat lat size st hA hs hsn r hr (j + 2) (by omega)
    have hj1 : j + 1 - 1 = j := by omega
    rw [hj1, hv0, hv1, hv2]
    rw [seq_update_getD _ _ hp]
    have hidx1 : (offset lat.length size r + (j + 1) + lat.length - 1) % lat.length
        = offset lat.length size r + j := by
      have heq : offset lat.length size r + (j + 1) + lat.length - 1
          = (offset lat.length size r + j) + lat.length := by omega
      rw [heq, Nat.add_mod_right, Nat.mod_eq_of_lt hp]
    have hidx2 : (offset lat.length size r + (j + 2) + lat.length - 1) % lat.length
        = (offset lat.length size r + j + 1) % lat.length := by
      have heq : offset lat.length size r + (j + 2) + lat.length - 1
          = (offset lat.length size r + j + 1) + lat.length := by omega
      rw [heq, Nat.add_mod_right]
    rw [hidx1, hidx2]

theorem run_aligned (lat : List Int) (size k : Nat) (hs : 1 ≤ size)
    (hsn : size ≤ lat.length) :
    Aligned (seq_update^[k] lat) size (run_sim lat size k) := by
  induction k with
  | zero => exact init_aligned lat size hs
  | succ k ih =>
    rw [Function.iterate_succ_apply', run_sim, Function.iterate_succ_apply']
    exact step_aligned _ _ _ ih hs (by rw [seq_iterate_length]; exact hsn)

theorem owned_of_length (seg : List Int) : (owned_of seg).length = seg.length - 2 := by
  simp only [owned_of, List.length_take, List.length_drop]
  omega

theorem owned_of_getD (seg : List Int) (p : Nat) (hp : p < seg.length - 2) :
    (owned_of seg).getD p 0 = seg.getD (p + 1) 0 := by
  rw [owned_of, List.getD_eq_getElem?_getD, List.getElem?_take, if_pos hp,
    List.getElem?_drop, Nat.add_comm 1 p, List.getD_eq_getElem?_getD]

theorem slice_getD (lat : List Int) (off ln p : Nat) (hp : p < ln) :
    ((lat.drop off).take ln).getD p 0 = lat.getD (off + p) 0 := by
  rw [List.getD_eq_getElem?_getD, List.getElem?_take, if_pos hp,
    List.getElem?_drop, List.getD_eq_getElem?_getD]

theorem owned_eq_slice (lat : List Int) (size : Nat) (st : List WState)
    (hA : Aligned lat size st) (hs : 1 ≤ size) (r : Nat) (hr : r < size) :
    owned_of (st.getD r ([], [])).1
      = (lat.drop (offset lat.length size r)).take (local_n lat.length size r) := by
  obtain ⟨hst, hw⟩ := hA
  obtain ⟨hlen, hnxt, hown⟩ := hw r hr
  have hof : offset lat.length size r + local_n lat.length size r ≤ lat.length :=
    offset_succ_le _ _ _ hs hr
  apply List.ext_getElem
  · rw [owned_of_length, hlen]
    simp only [List.length_take, List.length_drop]
    omega
  · intro p h1 h2
    rw [← getD_of_lt _ _ (0 : Int) h1, ← getD_of_lt _ _ (0 : Int) h2]
    have hpln : p < local_n lat.length size r := by
      rw [owned_of_length, hlen] at h1
      omega
    rw [owned_of_getD _ _ (by rw [hlen]; omega), slice_getD _ _ _ _ hpln]
    exact hown p hpln

theorem slices_flatten_aux (size : Nat) (lat : List Int) (hs : 1 ≤ size) :
    ∀ (fuel r : Nat), r + fuel = size →
      ((List.range' r fuel).map
        (fun q => (lat.drop (offset lat.length size q)).take
          (local_n lat.length size q))).flatten
      = lat.drop (offset lat.length size r) := by
  intro fuel
  induction fuel with
  | zero =>
    intro r hr
    have hr' : r = size := by omega
    rw [hr', offset_size _ _ hs]
    have hnil : lat.drop lat.length = [] := List.drop_eq_nil_iff.mpr (by omega)
    rw [hnil]
    simp
  | succ f ih =>
    intro r hr
    rw [List.range'_succ, List.map_cons, List.flatten_cons, ih (r + 1) (by omega)]
    have hoff : offset lat.length size (r + 1)
        = offset lat.length size r + local_n lat.length size r := rfl
    rw [hoff, ← List.drop_drop]
    exact List.take_append_drop _ _

theorem gather_of_aligned (lat : List Int) (size : Nat) (st : List WState)
    (hA : Aligned lat size st) (hs : 1 ≤ size) :
    gather_sim st = lat := by
  have hst := hA.1
  rw [gather_sim, map_eq_range_map (fun p => owned_of p.1) st ([], []), hst]
  have hcong : ∀ q ∈ List.range size,
      owned_of ((st.getD q ([], [])).1)
        = (lat.drop (offset lat.length size q)).take (local_n lat.length size q) := by
    intro q hq
    rw [List.mem_range] at hq
    exact owned_eq_slice lat size st hA hs q hq
  rw [List.map_congr_left hcong]
  have hflat := slices_flatten_aux size lat hs size 0 (by omega)
  rw [List.range_eq_range']
  rw [hflat]
  rfl

/-- Claim C3 counterexample: on the one-cell lattice `[1]` with two workers
(so one worker owns zero cells), a single iteration loses the car: the
gathered result is `[0]`, while the sequential reference (and the run with
`size = 1`) keeps `[1]`.  The final state is therefore not independent of the
worker count, and does not equal the sequential result, for `size > n`. -/
theorem C3_counterexample :
    gather_sim (run_sim [1] 2 1) = [0] ∧ seq_update^[1] [1] = [1] ∧
    gather_sim (run_sim [1] 1 1) = [1] := by decide

/-- Claim C3 amended: provided every worker owns at least one cell
(`1 ≤ size ≤ n`), the partitioned computation started from the partition of
an identical initial lattice produces, after any number of iterations, a
gathered lattice bit-for-bit equal to the sequential reference iterate — and
hence bit-for-bit identical for every admissible worker count. -/
theorem C3_partition_invariance (lat : List Int) (size k : Nat)
    (hs : 1 ≤ size) (hsn : size ≤ lat.length) :
    gather_sim (run_sim lat size k) = seq_update^[k] lat ∧
    (∀ size', 1 ≤ size' → size' ≤ lat.length →
      gather_sim (run_sim lat size' k) = gather_sim (run_sim lat size k)) := by
  have hmain : ∀ s, 1 ≤ s → s ≤ lat.length →
      gather_sim (run_sim lat s k) = seq_update^[k] lat := by
    intro s h1 h2
    exact gather_of_aligned _ _ _ (run_aligned lat s k h1 h2) h1
  refine ⟨hmain size hs hsn, ?_⟩
  intro s' h1 h2
  rw [hmain s' h1 h2, hmain size hs hsn]

/-- Witness for the amended C3: `n = 8`, three iterations, two workers. -/
theorem C3_partition_invariance_witness :
    ((1 : Nat) ≤ 2 ∧ (2 : Nat) ≤ ([1, 0, 1, 1, 0, 1, 0, 0] : List Int).length) ∧
    (gather_sim (run_sim [1, 0, 1, 1, 0, 1, 0, 0] 2 3)
        = seq_update^[3] [1, 0, 1, 1, 0, 1, 0, 0] ∧
      (∀ size', 1 ≤ size' → size' ≤ ([1, 0, 1, 1, 0, 1, 0, 0] : List Int).length →
        gather_sim (run_sim [1, 0, 1, 1, 0, 1, 0, 0] size' 3)
          = gather_sim (run_sim [1, 0, 1, 1, 0, 1, 0, 0] 2 3))) :=
  ⟨⟨by decide, by decide⟩,
    C3_partition_invariance [1, 0, 1, 1, 0, 1, 0, 0] 2 3 (by decide) (by decide)⟩

/-! ### Occupancy conservation -/

theorem total_eq_gather_sum (st : List WState) :
    total_cars st = (gather_sim st).sum := by
  rw [total_cars, gather_sim, List.sum_flatten, List.map_map]
  congr 1
  apply List.map_congr_left
  intro p _
  exact count_cars_local_eq_sum p.1

theorem rule_split (l c r : Int) :
    rule l c r = (if cB l && !cB c then (1 : Int) else 0)
      + (if cB c && cB r then (1 : Int) else 0) := by
  by_cases hl : cB l <;> by_cases hc : cB c <;> by_cases hr : cB r <;>
    simp [rule, hl, hc, hr]

/-- Indicator that the car at ring index `i` moves out (`old[i] && !old[i+1]`). -/
def moveI (lat : List Int) (i : Nat) : Int :=
  if cB (lat.getD i 0) && !cB (lat.getD ((i + 1) % lat.length) 0) then 1 else 0

/-- Indicator that the car at ring index `i` stays (`old[i] && old[i+1]`). -/
def stayI (lat : List Int) (i : Nat) : Int :=
  if cB (lat.getD i 0) && cB (lat.getD ((i + 1) % lat.length) 0) then 1 else 0

theorem mod_succ_pred (n a : Nat) (hn : 1 ≤ n) (ha : a < n) :
    ((a + n - 1) % n + 1) % n = a := by
  rcases Nat.eq_zero_or_pos a with h0 | h1
  · subst h0
    rw [Nat.zero_add]
    have h3 : (n - 1) % n = n - 1 := Nat.mod_eq_of_lt (by omega)
    have h2 : n - 1 + 1 = n := by omega
    rw [h3, h2, Nat.mod_self]
  · rw [mod_wrap _ _ h1 (by omega)]
    have h2 : a - 1 + 1 = a := by omega
    rw [h2, Nat.mod_eq_of_lt ha]

theorem mod_pred_succ (n b : Nat) (hn : 1 ≤ n) (hb : b < n) :
    ((b + 1) % n + n - 1) % n = b := by
  rcases Nat.lt_or_ge (b + 1) n with h1 | h1
  · rw [Nat.mod_eq_of_lt h1, mod_wrap _ _ (by omega) (by omega)]
    omega
  · have h2 : b + 1 = n := by omega
    rw [h2, Nat.mod_self, Nat.zero_add, Nat.mod_eq_of_lt (by omega)]
    omega

theorem sum_range_shift (n : Nat) (f : Nat → Int) (hn : 1 ≤ n) :
    ∑ i ∈ Finset.range n, f ((i + n - 1) % n) = ∑ i ∈ Finset.range n, f i := by
  apply Finset.sum_bij' (fun a _ => (a + n - 1) % n) (fun b _ => (b + 1) % n)
  · intro a ha
    exact Finset.mem_range.mpr (Nat.mod_lt _ (by omega))
  · intro b hb
    exact Finset.mem_range.mpr (Nat.mod_lt _ (by omega))
  · intro a ha
    exact mod_succ_pred n a hn (Finset.mem_range.mp ha)
  · intro b hb
    exact mod_pred_succ n b hn (Finset.mem_range.mp hb)
  · intro a ha
    rfl

theorem sum_eq_range_sum (l : List Int) :
    l.sum = ∑ i ∈ Finset.range l.length, l.getD i 0 := by
  have h : l = (List.range l.length).map (fun r => l.getD r 0) := by
    have h2 := map_eq_range_map (fun x => x) l 0
    simpa using h2
  conv_lhs => rw [h]
  rfl

theorem cell_split (c r : Int) (hc : c = 0 ∨ c = 1) :
    (if cB c && !cB r then (1 : Int) else 0)
      + (if cB c && cB r then (1 : Int) else 0) = c := by
  rcases hc with h | h <;> subst h <;> by_cases h0 : r = 0 <;> simp [cB, h0]

/-- The transition rule conserves the total occupancy of a ring of 0/1
cells. -/
theorem seq_update_sum (lat : List Int) (h01 : ∀ c ∈ lat, c = 0 ∨ c = 1) :
    (seq_update lat).sum = lat.sum := by
  rcases Nat.eq_zero_or_pos lat.length with hn0 | hn1
  · have : lat = [] := List.length_eq_zero.mp hn0
    subst this
    rfl
  · rw [sum_eq_range_sum, sum_eq_range_sum, seq_update_length]
    have hterm : ∀ i ∈ Finset.range lat.length,
        (seq_update lat).getD i 0
          = moveI lat ((i + lat.length - 1) % lat.length) + stayI lat i := by
      intro i hi
      have hi' := Finset.mem_range.mp hi
      rw [seq_update_getD lat i hi', rule_split]
      rw [moveI, stayI, mod_succ_pred _ _ (by omega) hi']
    have hcell : ∀ i ∈ Finset.range lat.length,
        moveI lat i + stayI lat i = lat.getD i 0 := by
      intro i hi
      have hi' := Finset.mem_range.mp hi
      rw [moveI, stayI]
      apply cell_split
      rw [getD_of_lt _ _ _ hi']
      exact h01 _ (List.getElem_mem hi')
    rw [Finset.sum_congr rfl hterm, Finset.sum_add_distrib,
      sum_range_shift _ _ hn1, ← Finset.sum_add_distrib,
      Finset.sum_congr rfl hcell]

theorem seq_update_mem01 (lat : List Int) : ∀ c ∈ seq_update lat, c = 0 ∨ c = 1 := by
  intro c hc
  rw [seq_update] at hc
  obtain ⟨i, _, rfl⟩ := List.mem_map.mp hc
  rw [rule]
  split <;> simp

theorem seq_iterate_mem01 (lat : List Int) (h01 : ∀ c ∈ lat, c = 0 ∨ c = 1) (k : Nat) :
    ∀ c ∈ seq_update^[k] lat, c = 0 ∨ c = 1 := by
  induction k with
  | zero => exact h01
  | succ k ih =>
    rw [Function.iterate_succ_apply']
    exact seq_update_mem01 _

theorem seq_iterate_sum (lat : List Int) (h01 : ∀ c ∈ lat, c = 0 ∨ c = 1) (k : Nat) :
    (seq_update^[k] lat).sum = lat.sum := by
  induction k with
  | zero => rfl
  | succ k ih =>
    rw [Function.iterate_succ_apply', seq_update_sum _ (seq_iterate_mem01 lat h01 k), ih]

/-- Claim C2 counterexample: on the lattice `[1]` with two workers (one of
which owns zero cells), a single iteration destroys the only car — the summed
worker occupancy drops from 1 to 0. -/
theorem C2_counterexample :
    total_cars (run_sim [1] 2 1) = 0 ∧ total_cars (init_state [1] 2) = 1 := by decide

/-- Claim C2 amended: provided every worker owns at least one cell
(`1 ≤ size ≤ n`), for any 0/1 initial lattice and any number of iterations,
the total occupancy summed over all workers after the run equals the total
before the run. -/
theorem C2_occupancy_conservation (lat : List Int) (size k : Nat)
    (hs : 1 ≤ size) (hsn : size ≤ lat.length)
    (h01 : ∀ c ∈ lat, c = 0 ∨ c = 1) :
    total_cars (run_sim lat size k) = total_cars (init_state lat size) := by
  rw [total_eq_gather_sum, total_eq_gather_sum,
    gather_of_aligned _ _ _ (run_aligned lat size k hs hsn) hs,
    gather_of_aligned _ _ _ (init_aligned lat size hs) hs,
    seq_iterate_sum lat h01 k]

/-- Witness for the amended C2: `n = 8`, three workers, four iterations. -/
theorem C2_occupancy_conservation_witness :
    ((1 : Nat) ≤ 3 ∧ (3 : Nat) ≤ ([1, 0, 1, 1, 0, 1, 0, 0] : List Int).length ∧
      (∀ c ∈ ([1, 0, 1, 1, 0, 1, 0, 0] : List Int), c = 0 ∨ c = 1)) ∧
    total_cars (run_sim [1, 0, 1, 1, 0, 1, 0, 0] 3 4)
      = total_cars (init_state [1, 0, 1, 1, 0, 1, 0, 0] 3) :=
  ⟨⟨by decide, by decide, by decide⟩,
    C2_occupancy_conservation [1, 0, 1, 1, 0, 1, 0, 0] 3 4 (by decide) (by decide)
      (by decide)⟩

/-- Claim C9: starting from the `n = 8` ring `[1,0,0,0,0,0,0,0]`, for each
worker count in `{1, 2, 4}` the single occupied cell advances forward by one
ring position per iteration (position `k mod 8` after `k` iterations), and
after exactly 8 iterations the gathered lattice equals the initial one. -/
theorem C9_single_car_orbit :
    ∀ sz : Fin 3, ∀ k : Fin 9,
      gather_sim (run_sim [1, 0, 0, 0, 0, 0, 0, 0] ([1, 2, 4].get sz) (k : Nat))
        = (List.range 8).map (fun i => if i = (k : Nat) % 8 then 1 else 0) := by
  decide

end CA
